import Mathlib

/-!
Verification of the `patternmatcher` Go package (src/patternmatcher.go):
a shallow embedding of the rule compiler (`Compile`, `NewPattern`,
`NewPatterns`), the single-rule matcher (`Pattern.Match`) and the two
rule-set matchers (`MatchesOrParentMatches`, `MatchesUsingParentResults`),
together with theorems settling the specification's claims.

Conventions of the embedding:
* The Unix platform is modelled: `os.PathSeparator` is `'/'` and
  `filepath.FromSlash` is the identity.
* Paths, patterns and regular expressions are `List Char` (one entry per
  Unicode code point, matching the rune-level scanning of the Go code).
* The Go standard-library collaborators used by the package
  (`filepath.Clean`, `filepath.Dir`, `strings.Split`, `strings.Join`,
  `filepath.Match`, and the `regexp` engine on the expressions the compiler
  actually generates) are modelled here as executable Lean functions,
  ported from their documented stdlib behaviour.
-/

namespace PM

/-- The path separator of the modelled (Unix) platform, `os.PathSeparator`. -/
def sep : Char := '/'

/-- `filepath.FromSlash` on Unix is the identity (separator is already `/`). -/
def fromSlash (s : List Char) : List Char := s

/-- `strings.Split(s, "/")`: split a string on the path separator.
`splitSep [] = [[]]`, matching Go's `strings.Split("", "/") = [""]`. -/
def splitSep : List Char → List (List Char)
  | [] => [[]]
  | c :: rest =>
    if c = sep then [] :: splitSep rest
    else
      match splitSep rest with
      | s :: ss => (c :: s) :: ss
      | [] => [[c]]

/-- `strings.Join(parts, "/")`: interleave the path separator. -/
def joinSep : List (List Char) → List Char
  | [] => []
  | [s] => s
  | s :: rest => s ++ sep :: joinSep rest

/-- Segment-stack processing used by the lexical cleaner: drop empty and `.`
segments, let `..` pop a previous real segment (or be dropped at the root of
a rooted path, or be kept at the front of a relative path). Modelled from
the Go standard library `path/filepath.Clean` (Unix rules), the external
lexical-cleaning collaborator of the package. -/
def cleanSegsAux (rooted : Bool) : List (List Char) → List (List Char) → List (List Char)
  | out, [] => out
  | out, seg :: rest =>
    if seg = [] ∨ seg = ['.'] then cleanSegsAux rooted out rest
    else if seg = ['.', '.'] then
      if out ≠ [] ∧ out.getLast? ≠ some ['.', '.'] then cleanSegsAux rooted out.dropLast rest
      else if rooted then cleanSegsAux rooted out rest
      else cleanSegsAux rooted (out ++ [['.', '.']]) rest
    else cleanSegsAux rooted (out ++ [seg]) rest

/-- Modelled from the Go standard library `path/filepath.Clean` (Unix):
lexically canonicalize a path (remove `.` and empty components, resolve
`..`, keep a leading `/`), returning `"."` for an empty result. -/
def clean (path : List Char) : List Char :=
  if path = [] then ['.']
  else
    let rooted := path.head? = some sep
    let segs := cleanSegsAux rooted [] (splitSep path)
    let out := joinSep segs
    let out := if rooted then sep :: out else out
    if out = [] then ['.'] else out

/-- Modelled from the Go standard library `path/filepath.Dir` (Unix): drop
the final path element (everything after the last separator) and `Clean`
the rest; a path with no separator has directory `"."`. -/
def dirPath (path : List Char) : List Char :=
  clean (path.reverse.dropWhile (fun c => c ≠ sep)).reverse

/-- The set of bytes marked in the package's `escapeBytes` bitmap.  The Go
`init` runs `escapeBytes[b%8] |= 1 << (b/8)` over the bytes of `".+()|{}$"`;
the shift is performed at type `byte`, so `1 << (b/8)` is `2^(b/8) mod 256`
(zero for bytes `'|'`, `'{'`, `'}'`, whose `b/8` is at least 8). -/
def escapeBytes (k : Nat) : Nat :=
  (['.', '+', '(', ')', '|', '{', '}', '$'].foldl
    (fun (t : Nat → Nat) c =>
      let b := c.toNat
      fun j => if j = b % 8 then Nat.lor (t j) ((1 <<< (b / 8)) % 256) else t j)
    (fun _ => 0)) k

/-- `shouldEscape`: whether the rune is escaped when building the regex.
Faithful port of the bitmap test `b < utf8.RuneSelf && escapeBytes[b%8] &
(1<<(b/8)) != 0`, where the shift again happens at byte width. -/
def shouldEscape (c : Char) : Bool :=
  decide (c.toNat < 128) &&
    decide (Nat.land (escapeBytes (c.toNat % 8)) ((1 <<< (c.toNat / 8)) % 256) ≠ 0)

/-- The classification tags of compiled patterns (`MatchType` in the source). -/
inductive MatchType where
  | UnknownMatch
  | ExactMatch
  | PrefixMatch
  | SuffixMatch
  | RegexpMatch
deriving DecidableEq, Repr

/-- One fragment appended to the regex string `regStr` by one branch of the
`Compile` scan loop.  `ch c` is a character appended verbatim (ordinary
characters and the bracket characters `[` `]`), `esc c` is the two-character
append `\c` (from the `shouldEscape` branch and from the backslash-escape
branch), `bslash` is the lone backslash appended for a pattern-final `\`,
and the remaining constructors are the wildcard fragments `[^/]*`, `[^/]`,
`.*` and `(.*/)?`. -/
inductive RFrag where
  | ch (c : Char)
  | esc (c : Char)
  | bslash
  | starNoSep
  | oneNoSep
  | dotStar
  | optSegs
deriving DecidableEq, Repr

/-- The scan loop of `Compile`: one recursive call per `for` iteration,
consuming the pattern rune by rune (a double star consumes up to three
runes in one iteration), threading the iteration counter `i`, the running
classification and the regex fragments accumulated so far. -/
def scanLoop : List Char → Nat → MatchType → List RFrag → MatchType × List RFrag
  | [], _, mt, acc => (mt, acc)
  | '*' :: '*' :: '/' :: rest3, i, mt, acc =>
    -- "**/": the separator after the double star is consumed as well
    match rest3 with
    | [] =>
      -- "**" at end of pattern
      let mt2 := if mt = .ExactMatch then .PrefixMatch else .RegexpMatch
      let acc2 := if mt = .ExactMatch then acc else acc ++ [.dotStar]
      ((if i = 0 then .SuffixMatch else mt2), acc2)
    | _ :: _ =>
      scanLoop rest3 (i + 1) (if i = 0 then .SuffixMatch else .RegexpMatch)
        (acc ++ [.optSegs])
  | '*' :: '*' :: rest2, i, mt, acc =>
    -- double star not followed by a separator
    match rest2 with
    | [] =>
      let mt2 := if mt = .ExactMatch then .PrefixMatch else .RegexpMatch
      let acc2 := if mt = .ExactMatch then acc else acc ++ [.dotStar]
      ((if i = 0 then .SuffixMatch else mt2), acc2)
    | _ :: _ =>
      scanLoop rest2 (i + 1) (if i = 0 then .SuffixMatch else .RegexpMatch)
        (acc ++ [.optSegs])
  | '*' :: rest, i, _, acc =>
    -- single star: anything but the separator
    scanLoop rest (i + 1) .RegexpMatch (acc ++ [.starNoSep])
  | '?' :: rest, i, _, acc =>
    scanLoop rest (i + 1) .RegexpMatch (acc ++ [.oneNoSep])
  | c :: rest, i, mt, acc =>
    if shouldEscape c then scanLoop rest (i + 1) mt (acc ++ [.esc c])
    else if c = '\\' then
      match rest with
      | [] => ((scanLoop [] (i + 1) mt (acc ++ [.bslash])))
      | c2 :: rest2 => scanLoop rest2 (i + 1) .RegexpMatch (acc ++ [.esc c2])
    else if c = '[' ∨ c = ']' then scanLoop rest (i + 1) .RegexpMatch (acc ++ [.ch c])
    else scanLoop rest (i + 1) mt (acc ++ [.ch c])

/-- An element of the parsed (anchor-free) regular-expression body:
a literal character, a character class (negation flag and ranges), or one of
the wildcard fragments `[^/]*`, `[^/]`, `.*`, `(.*/)?`. -/
inductive RElem where
  | lit (c : Char)
  | cls (neg : Bool) (ranges : List (Char × Char))
  | starNoSep
  | oneNoSep
  | dotStar
  | optSegs
deriving DecidableEq, Repr

/-- A token of the complete generated expression `"^" ++ body ++ "$"`:
either a positional anchor or a body element. -/
inductive RTok where
  | caret
  | dollar
  | elem (e : RElem)
deriving DecidableEq, Repr

/-- A parsed regular expression as the Go `regexp` engine sees the generated
string: the body elements between the anchors, and whether the final `$` is
still an anchor (`endAnchored = false` exactly when a pattern-final `\`
merged with the appended `$` into the literal-dollar escape `\$`; in that
case the literal `'$'` appears at the end of `body` instead). -/
structure Regex where
  body : List RElem
  endAnchored : Bool
deriving DecidableEq, Repr

/-- Turn the collected class characters (paired with an escaped flag) into
ranges, RE2-style: an unescaped `-` between two members forms a range
(rejected when the bounds are out of order); other members stand for
themselves. -/
def classRanges : List (Char × Bool) → Option (List (Char × Char))
  | [] => some []
  | (c, _) :: ('-', false) :: (d, _) :: rest =>
    if c ≤ d then (classRanges rest).map (fun l => (c, d) :: l) else none
  | (c, _) :: rest => (classRanges rest).map (fun l => (c, c) :: l)

/-- Parser state: outside any bracket class, or inside one, tracking the
negation flag, whether we are at the first position (where `^` negates),
and the members collected so far. -/
inductive PState where
  | out
  | inC (neg : Bool) (first : Bool) (acc : List (Char × Bool))

/-- Parse the fragment stream into the regex body the `regexp` engine would
compile from `"^" ++ regStr ++ "$"`, one fragment at a time.  Returns the
body together with the end-anchoredness flag: a pattern-final lone
backslash merges with the appended `$` into a literal dollar, losing the
end anchor.  Returns `none` for generated strings this model does not
interpret (alternation from an unescaped `|`, a mid-pattern `^`, brace
characters, alphanumeric escapes such as `\d`, wildcard fragments inside a
bracket class, malformed classes); the Go engine may accept some of those
and rejects others — they are outside the modelled sublanguage, like the
expressions on which `regexp.Compile` fails. -/
def parseGo : List RFrag → PState → Option (List RElem × Bool)
  | [], .out => some ([], true)
  | [], .inC _ _ _ => none
  | .bslash :: rest, .out =>
    match rest with
    | [] => some ([.lit '$'], false)
    | _ :: _ => none
  | .esc c :: rest, .out =>
    if c.isAlphanum then none
    else (parseGo rest .out).map (fun p => (.lit c :: p.1, p.2))
  | .starNoSep :: rest, .out => (parseGo rest .out).map (fun p => (.starNoSep :: p.1, p.2))
  | .oneNoSep :: rest, .out => (parseGo rest .out).map (fun p => (.oneNoSep :: p.1, p.2))
  | .dotStar :: rest, .out => (parseGo rest .out).map (fun p => (.dotStar :: p.1, p.2))
  | .optSegs :: rest, .out => (parseGo rest .out).map (fun p => (.optSegs :: p.1, p.2))
  | .ch c :: rest, .out =>
    if c = '[' then parseGo rest (.inC false true [])
    else if c = '|' ∨ c = '^' ∨ c = '{' ∨ c = '}' then none
    else (parseGo rest .out).map (fun p => (.lit c :: p.1, p.2))
  | .ch c :: rest, .inC neg first acc =>
    if c = '^' ∧ first then parseGo rest (.inC true false [])
    else if c = ']' then
      if acc = [] then none
      else
        match classRanges acc with
        | none => none
        | some rs => (parseGo rest .out).map (fun p => (.cls neg rs :: p.1, p.2))
    else parseGo rest (.inC neg false (acc ++ [(c, false)]))
  | .esc c :: rest, .inC neg _ acc => parseGo rest (.inC neg false (acc ++ [(c, true)]))
  | _ :: _, .inC _ _ _ => none

/-- Parse a complete fragment stream (starting outside any class). -/
def parseBody (fs : List RFrag) : Option (List RElem × Bool) :=
  parseGo fs .out

/-- Membership in a character class. -/
def inClass (neg : Bool) (ranges : List (Char × Char)) (c : Char) : Bool :=
  let m := ranges.any (fun r => r.1 ≤ c ∧ c ≤ r.2)
  if neg then !m else m

/-- The suffixes of `s` reachable by deleting one or more leading
non-separator characters — the continuation points of the `[^/]*` fragment
after consuming at least one character. -/
def starTails : List Char → List (List Char)
  | [] => []
  | c :: s => if c ≠ sep then s :: starTails s else []

/-- The suffixes of `s` reachable by deleting one or more leading
non-newline characters (Go regexp's `.` does not match a newline) — the
continuation points of `.*` after consuming at least one character. -/
def dotTails : List Char → List (List Char)
  | [] => []
  | c :: s => if c ≠ '\n' then s :: dotTails s else []

/-- The continuation points of the group `(.*/)`: any prefix of non-newline
characters followed by a consumed separator. -/
def optSegTails : List Char → List (List Char)
  | [] => []
  | c :: s => (if c = sep then [s] else []) ++ (if c ≠ '\n' then optSegTails s else [])

/-- Whether the anchor-free body matches the entire character list
(the specification's notion of "the whole path is matched"). -/
def reFull : List RElem → List Char → Bool
  | [], s => s.isEmpty
  | .lit c :: es, s =>
    match s with
    | [] => false
    | c2 :: s2 => decide (c = c2) && reFull es s2
  | .cls n r :: es, s =>
    match s with
    | [] => false
    | c2 :: s2 => inClass n r c2 && reFull es s2
  | .oneNoSep :: es, s =>
    match s with
    | [] => false
    | c2 :: s2 => decide (c2 ≠ sep) && reFull es s2
  | .starNoSep :: es, s => reFull es s || (starTails s).any (fun t => reFull es t)
  | .dotStar :: es, s => reFull es s || (dotTails s).any (fun t => reFull es t)
  | .optSegs :: es, s => reFull es s || (optSegTails s).any (fun t => reFull es t)

/-- Whether the token list matches some prefix of `rest`, where `atStart`
records that `rest` begins at position 0 of the searched string: `^`
succeeds only at position 0, `$` only when the whole remainder is empty. -/
def mAt : List RTok → Bool → List Char → Bool
  | [], _, _ => true
  | .caret :: ts, aS, s => aS && mAt ts aS s
  | .dollar :: ts, aS, s => s.isEmpty && mAt ts aS s
  | .elem (.lit c) :: ts, _, s =>
    match s with
    | [] => false
    | c2 :: s2 => decide (c = c2) && mAt ts false s2
  | .elem (.cls n r) :: ts, _, s =>
    match s with
    | [] => false
    | c2 :: s2 => inClass n r c2 && mAt ts false s2
  | .elem .oneNoSep :: ts, _, s =>
    match s with
    | [] => false
    | c2 :: s2 => decide (c2 ≠ sep) && mAt ts false s2
  | .elem .starNoSep :: ts, aS, s =>
    mAt ts aS s || (starTails s).any (fun t => mAt ts false t)
  | .elem .dotStar :: ts, aS, s =>
    mAt ts aS s || (dotTails s).any (fun t => mAt ts false t)
  | .elem .optSegs :: ts, aS, s =>
    mAt ts aS s || (optSegTails s).any (fun t => mAt ts false t)

/-- Substring search, as Go's `Regexp.MatchString`: try a match starting at
every position of the string (only the first position is `atStart`). -/
def mSearch (ts : List RTok) : Bool → List Char → Bool
  | aS, s =>
    mAt ts aS s ||
      match s with
      | [] => false
      | _ :: s' => mSearch ts false s'

/-- The token sequence of the generated expression `"^" ++ body ++ "$"`
(no trailing `dollar` token when the final `$` was escaped away). -/
def regexToks (r : Regex) : List RTok :=
  .caret :: r.body.map .elem ++ (if r.endAnchored then [.dollar] else [])

/-- `Regexp.MatchString` on the generated expression. -/
def reMatchString (r : Regex) (s : List Char) : Bool :=
  mSearch (regexToks r) true s

/-- A compiled rule (`Pattern` in the source): classification, cleaned
pattern text, its separator-split segments, the compiled regular expression
(present only for the `RegexpMatch` strategy) and the exclusion flag. -/
structure Pattern where
  matchType : MatchType
  cleanedPattern : List Char
  dirs : List (List Char)
  regexp : Option Regex
  exclusion : Bool
deriving DecidableEq, Repr

/-- `Compile`: scan the pattern, and compile the generated expression only
when the final classification is `RegexpMatch`; a failure of the regexp
engine (or an expression outside the modelled sublanguage) is the
`MalformedPattern` error. -/
def Compile (pattern : List Char) : Except String (MatchType × Option Regex) :=
  let r := scanLoop pattern 0 .ExactMatch []
  if r.1 = .RegexpMatch then
    match parseBody r.2 with
    | some be => .ok (r.1, some ⟨be.1, be.2⟩)
    | none => .error "malformed pattern"
  else .ok (r.1, none)

/-- `Pattern.Match`: the single-rule matcher.  The `[]`/`none` fallbacks in
the `SuffixMatch` and `RegexpMatch` branches are unreachable for patterns
built by a successful `NewPattern` (in Go they would be a panic); `false` is
returned for the `UnknownMatch` strategy, as by the Go `switch` default. -/
def patternMatch (p : Pattern) (path : List Char) : Bool :=
  match p.matchType with
  | .ExactMatch => decide (path = p.cleanedPattern)
  | .PrefixMatch =>
    -- strip trailing **
    (p.cleanedPattern.take (p.cleanedPattern.length - 2)).isPrefixOf path
  | .SuffixMatch =>
    -- strip leading **
    let suffix := p.cleanedPattern.drop 2
    if suffix.isSuffixOf path then true
    else
      -- **/foo matches "foo"
      match suffix with
      | [] => false
      | c :: rest => decide (c = sep) && decide (path = rest)
  | .RegexpMatch =>
    match p.regexp with
    | some re => reMatchString re path
    | none => false
  | .UnknownMatch => false

/-! ### The `filepath.Match` syntax check used by `NewPatterns`

`NewPatterns` calls the Go standard library `filepath.Match(p, ".")` purely
for its error result.  The following is a port of that function (Unix
rules, modern Go behaviour that diagnoses bad patterns even when the match
fails early); errors are `Except.error ()`. -/

/-- `scanChunk`'s inner scan: split off the chunk up to the next `*` that is
not inside a bracket range, keeping escape pairs together. -/
def chunkSplit : List Char → Bool → List Char × List Char
  | [], _ => ([], [])
  | c :: rest, inrange =>
    if c = '\\' then
      match rest with
      | c2 :: rest2 =>
        let p := chunkSplit rest2 inrange
        (c :: c2 :: p.1, p.2)
      | [] => ([c], [])
    else if c = '[' then
      let p := chunkSplit rest true
      (c :: p.1, p.2)
    else if c = ']' then
      let p := chunkSplit rest false
      (c :: p.1, p.2)
    else if c = '*' then
      if inrange then
        let p := chunkSplit rest inrange
        (c :: p.1, p.2)
      else ([], c :: rest)
    else
      let p := chunkSplit rest inrange
      (c :: p.1, p.2)

/-- `scanChunk`: strip leading stars (recording whether there was one) and
split off the first chunk. -/
def scanChunk (pattern : List Char) : Bool × List Char × List Char :=
  let star := pattern.head? = some '*'
  let p := pattern.dropWhile (fun c => c = '*')
  let q := chunkSplit p false
  (star, q.1, q.2)

/-- `getEsc`: read one (possibly escaped) character-class member; errors on
a leading `-` or `]`, a dangling escape, or a member that ends the chunk
(the closing `]` must still follow). -/
def getEsc : List Char → Except Unit (Char × List Char)
  | [] => .error ()
  | c :: rest =>
    if c = '-' ∨ c = ']' then .error ()
    else if c = '\\' then
      match rest with
      | [] => .error ()
      | c2 :: rest2 => if rest2 = [] then .error () else .ok (c2, rest2)
    else if rest = [] then .error () else .ok (c, rest)

/-- The range-parsing loop of `matchChunk`'s character-class case: read
ranges until the closing `]` (which requires at least one previous range),
accumulating whether the probed rune `r` fell in any range.  The `fuel`
argument only drives the recursion; every iteration consumes at least one
chunk character, so the `chunk.length + 1` supplied by `classLoop` can
never run out (the `fuel = 0` branch is unreachable). -/
def classLoopF (r : Char) : Nat → List Char → Bool → Nat → Except Unit (Bool × List Char)
  | 0, _, _, _ => .error ()
  | fuel + 1, chunk, matchAcc, nrange =>
    if chunk.head? = some ']' ∧ nrange > 0 then .ok (matchAcc, chunk.tail)
    else
      match getEsc chunk with
      | .error e => .error e
      | .ok (lo, chunk1) =>
        if chunk1.head? = some '-' then
          match getEsc chunk1.tail with
          | .error e => .error e
          | .ok (hi, chunk2) =>
            classLoopF r fuel chunk2 (matchAcc || (decide (lo ≤ r) && decide (r ≤ hi))) (nrange + 1)
        else
          -- hi = lo when no range dash follows
          classLoopF r fuel chunk1 (matchAcc || (decide (lo ≤ r) && decide (r ≤ lo))) (nrange + 1)

/-- The class loop with sufficient fuel. -/
def classLoop (r : Char) (chunk : List Char) (matchAcc : Bool) (nrange : Nat) :
    Except Unit (Bool × List Char) :=
  classLoopF r (chunk.length + 1) chunk matchAcc nrange

/-- `matchChunk`: match a chunk against the head of `s`, continuing to scan
the chunk for syntax errors even after the match has `failed`.  Returns
`(ok, rest-of-s)`.  Fueled like `classLoopF`: every iteration consumes at
least one chunk character. -/
def matchChunkF : Nat → List Char → List Char → Bool → Except Unit (Bool × List Char)
  | 0, _, _, _ => .error ()
  | _ + 1, [], s, failed => if failed then .ok (false, []) else .ok (true, s)
  | fuel + 1, c :: rest, s, failed0 =>
    let failed := if !failed0 && s.isEmpty then true else failed0
    if c = '[' then
      -- character class; the probed rune is consumed only when not failed
      let rs := if failed then (Char.ofNat 0, s)
        else
          match s with
          | x :: xs => (x, xs)
          | [] => (Char.ofNat 0, [])
      let negated := rest.head? = some '^'
      let rest1 := if negated then rest.tail else rest
      match classLoop rs.1 rest1 false 0 with
      | .error e => .error e
      | .ok mr => matchChunkF fuel mr.2 rs.2 (if mr.1 = negated then true else failed)
    else if c = '?' then
      if failed then matchChunkF fuel rest s failed
      else
        match s with
        | x :: xs => matchChunkF fuel rest xs (if x = sep then true else failed)
        | [] => matchChunkF fuel rest [] failed
    else if c = '\\' then
      match rest with
      | [] => .error ()
      | c2 :: rest2 =>
        -- fall through to the literal comparison with the escaped character
        if failed then matchChunkF fuel rest2 s failed
        else
          match s with
          | x :: xs => matchChunkF fuel rest2 xs (decide (c2 ≠ x))
          | [] => matchChunkF fuel rest2 [] true
    else
      if failed then matchChunkF fuel rest s failed
      else
        match s with
        | x :: xs => matchChunkF fuel rest xs (decide (c ≠ x))
        | [] => matchChunkF fuel rest [] true

/-- `matchChunk` with sufficient fuel. -/
def matchChunk (chunk s : List Char) (failed : Bool) : Except Unit (Bool × List Char) :=
  matchChunkF (chunk.length + 1) chunk s failed

/-- The inner loop of `Match`'s star handling: try the chunk at successive
later positions of `name` (never skipping past a separator).  Returns the
remaining name on success (`some`), `none` when no position works. -/
def starLoop (chunk rest : List Char) : List Char → Except Unit (Option (List Char))
  | [] => .ok none
  | x :: xs =>
    if x = sep then .ok none
    else
      match matchChunk chunk xs false with
      | .ok pr =>
        if pr.1 then
          if rest = [] ∧ pr.2 ≠ [] then starLoop chunk rest xs
          else .ok (some pr.2)
        else starLoop chunk rest xs
      | .error e => .error e

/-- The trailing syntax-validation loop of `Match`: before returning a
non-error `false`, scan the remaining pattern chunks against the empty
string purely for syntax errors.  Fueled: every iteration consumes at
least one pattern character. -/
def validateRestF : Nat → List Char → Except Unit Bool
  | 0, _ => .error ()
  | _ + 1, [] => .ok false
  | fuel + 1, c :: rest =>
    let s := scanChunk (c :: rest)
    match matchChunk s.2.1 [] false with
    | .error e => .error e
    | .ok _ => validateRestF fuel s.2.2

/-- Modelled from the Go standard library `path/filepath.Match` (Unix,
modern Go: bad patterns are diagnosed even when the match fails early).
Only its error/success distinction is consumed by `NewPatterns`.  Fueled:
every iteration of `Match`'s chunk loop consumes at least one pattern
character, so the `pattern.length + 1` supplied by the `goMatch` wrapper
can never run out. -/
def goMatchF : Nat → List Char → List Char → Except Unit Bool
  | 0, _, _ => .error ()
  | _ + 1, [], name => .ok (decide (name = []))
  | fuel + 1, c :: rest, name =>
    let s := scanChunk (c :: rest)
    if s.1 ∧ s.2.1 = [] then
      -- trailing * matches the rest unless it contains a separator
      .ok (!(name.contains sep))
    else
      match matchChunk s.2.1 name false with
      | .ok pr =>
        if pr.1 ∧ (pr.2 = [] ∨ s.2.2 ≠ []) then goMatchF fuel s.2.2 pr.2
        else if s.1 then
          match starLoop s.2.1 s.2.2 name with
          | .error e => .error e
          | .ok (some t2) => goMatchF fuel s.2.2 t2
          | .ok none => validateRestF fuel s.2.2
        else validateRestF fuel s.2.2
      | .error e => .error e

/-- `filepath.Match` with sufficient fuel. -/
def goMatch (pattern name : List Char) : Except Unit Bool :=
  goMatchF (pattern.length + 1) pattern name

/-- `NewPattern`: strip a leading `!` (rejecting a bare `!`), compile, and
assemble the `Pattern` value.  A Go call on the empty string would panic on
the `pattern[0]` index; `NewPatterns` never passes one, and the model
reports it as an error. -/
def mkPattern (pattern2 : List Char) (exclusion : Bool) : Except String Pattern :=
  match Compile pattern2 with
  | .error e => .error e
  | .ok mr =>
    .ok { matchType := mr.1, cleanedPattern := pattern2, dirs := splitSep pattern2,
          regexp := mr.2, exclusion := exclusion }

def newPattern (pattern : List Char) : Except String Pattern :=
  match pattern with
  | [] => .error "empty pattern"
  | c :: rest =>
    let exclusion : Bool := c = '!'
    let pattern2 := if exclusion then rest else c :: rest
    if exclusion ∧ pattern2 = [] then .error "illegal exclusion pattern"
    else mkPattern pattern2 exclusion

/-- Unicode white space trimming of `strings.TrimSpace`, restricted to the
ASCII white-space runes (sufficient for the corpus handled here). -/
def isSpace (c : Char) : Bool :=
  c = ' ' ∨ c = '\t' ∨ c = '\n' ∨ c = '\x0b' ∨ c = '\x0c' ∨ c = '\r'

/-- `strings.TrimSpace`. -/
def trimSpace (s : List Char) : List Char :=
  ((s.dropWhile isSpace).reverse.dropWhile isSpace).reverse

/-- `NewPatterns`: trim each rule, drop empties, lexically clean it, run the
`filepath.Match` syntax check against `"."`, then build the `Pattern`. -/
def newPatterns : List (List Char) → Except String (List Pattern)
  | [] => .ok []
  | p :: rest =>
    let p := trimSpace p
    if p = [] then newPatterns rest
    else
      let p := clean p
      match goMatch p ['.'] with
      | .error _ => .error "bad pattern"
      | .ok _ =>
        match newPattern p with
        | .error e => .error e
        | .ok pat =>
          match newPatterns rest with
          | .error e => .error e
          | .ok pats => .ok (pat :: pats)

/-- The ancestor-prefix scan shared by both rule-set matchers: test the rule
against the join of the first `k+1` parent segments, for each `k`, accepting
the first match. -/
def ancestorAny (p : Pattern) (dirs : List (List Char)) : Bool :=
  (List.range dirs.length).any fun k => patternMatch p (joinSep (dirs.take (k + 1)))

/-- Whether a rule hits the file in `MatchesOrParentMatches`: a direct
match, or — when the parent path is not the current directory — an
ancestor-prefix match. -/
def mopHit (file parentPath : List Char) (dirs : List (List Char)) (p : Pattern) : Bool :=
  let m := patternMatch p file
  if !m ∧ parentPath ≠ ['.'] then ancestorAny p dirs else m

/-- The evaluation branch of one `MatchesOrParentMatches` iteration: match
the file (directly or through an ancestor) and flip the running verdict on
a hit. -/
def mopEval (file parentPath : List Char) (dirs : List (List Char))
    (matched : Bool) (p : Pattern) : Bool :=
  if mopHit file parentPath dirs p then !p.exclusion else matched

/-- One iteration of the `MatchesOrParentMatches` loop: skip the rule when
its exclusion flag differs from the running `matched`, otherwise evaluate
it. -/
def mopStep (file parentPath : List Char) (dirs : List (List Char))
    (matched : Bool) (p : Pattern) : Bool :=
  if p.exclusion ≠ matched then matched
  else mopEval file parentPath dirs matched p

/-- `mopStep` instrumented with an evaluation trace: alongside the running
verdict, record for each rule whether its evaluation branch (the match
predicate and possibly the ancestor scan) was entered at all. -/
def mopStepInstr (file parentPath : List Char) (dirs : List (List Char))
    (st : Bool × List Bool) (p : Pattern) : Bool × List Bool :=
  if p.exclusion ≠ st.1 then (st.1, st.2 ++ [false])
  else (mopEval file parentPath dirs st.1 p, st.2 ++ [true])

/-- `MatchesOrParentMatches` instrumented with the per-rule evaluation
trace. -/
def matchesOrParentMatchesInstr (patterns : List Pattern) (file : List Char) :
    Bool × List Bool :=
  let file := clean file
  if file = ['.'] then (false, [])
  else
    let file := fromSlash file
    let parentPath := dirPath file
    let dirs := splitSep parentPath
    patterns.foldl (mopStepInstr file parentPath dirs) (false, [])

/-- Modelled from the claim's words, for comparison with the code: a loop
step that skips a rule exactly when its exclusion flag EQUALS the running
`matched` (the opposite guard of `mopStep`). -/
def mopStepSpecSkip (file parentPath : List Char) (dirs : List (List Char))
    (matched : Bool) (p : Pattern) : Bool :=
  if p.exclusion = matched then matched
  else mopEval file parentPath dirs matched p

/-- Modelled from the claim's words: `MatchesOrParentMatches` with the
skip guard the claim describes. -/
def matchesOrParentMatchesSpecSkip (patterns : List Pattern) (file : List Char) : Bool :=
  let file := clean file
  if file = ['.'] then false
  else
    let file := fromSlash file
    let parentPath := dirPath file
    let dirs := splitSep parentPath
    patterns.foldl (mopStepSpecSkip file parentPath dirs) false

/-- `MatchesOrParentMatches`: clean the path, never match the current
directory, then run the rule loop with the parent-directory segments. -/
def matchesOrParentMatches (patterns : List Pattern) (file : List Char) : Bool :=
  let file := clean file
  if file = ['.'] then false
  else
    let file := fromSlash file
    let parentPath := dirPath file
    let dirs := splitSep parentPath
    patterns.foldl (mopStep file parentPath dirs) false

/-- Whether a rule hits the file in `MatchesUsingParentResults` when it is
evaluated: a direct match, with the ancestor-prefix fallback only when no
parent state at all was supplied. -/
def mupHit (file : List Char) (hasParent : Bool) (p : Pattern) : Bool :=
  let m := patternMatch p file
  if !m ∧ !hasParent then
    let parentPath := dirPath file
    if parentPath ≠ ['.'] then ancestorAny p (splitSep parentPath) else m
  else m

/-- One iteration of the `MatchesUsingParentResults` loop over the rules
zipped with their parent seeds, accumulating the fresh match vector:
a parent match is inherited without re-testing; otherwise the skip logic of
`MatchesOrParentMatches` applies, then the rule is evaluated. -/
def mupLoop (file : List Char) (hasParent : Bool) :
    List (Pattern × Bool) → Bool → List Bool → Bool × List Bool
  | [], matched, acc => (matched, acc)
  | (p, seed) :: rest, matched, acc =>
    if seed then mupLoop file hasParent rest (!p.exclusion) (acc ++ [true])
    else if p.exclusion ≠ matched then mupLoop file hasParent rest matched (acc ++ [false])
    else
      let m := mupHit file hasParent p
      mupLoop file hasParent rest (if m then !p.exclusion else matched) (acc ++ [m])

/-- `MatchesUsingParentResults`: check the parent-state length, seed each
rule's match from the parent vector, and return the verdict together with
the fresh per-rule match vector. -/
def matchesUsingParentResults (patterns : List Pattern) (file : List Char)
    (parentMatched : List Bool) : Except String (Bool × List Bool) :=
  if parentMatched.length ≠ 0 ∧ parentMatched.length ≠ patterns.length then
    .error "wrong number of values in parentMatched"
  else
    let file := fromSlash file
    let hasParent := parentMatched.length ≠ 0
    let seeds := if hasParent then parentMatched else List.replicate patterns.length false
    .ok (mupLoop file hasParent (patterns.zip seeds) false [])

/-- Thread `MatchesUsingParentResults` along a path one segment at a time:
evaluate each prefix of the segment list, passing each returned match vector
as the parent state of the next call (the first call gets the empty state). -/
def chainAux (ps : List Pattern) (pref : List (List Char)) :
    Bool × List Bool → List (List Char) → Except String (Bool × List Bool)
  | st, [] => .ok st
  | st, seg :: rest =>
    match matchesUsingParentResults ps (joinSep (pref ++ [seg])) st.2 with
    | .error e => .error e
    | .ok st' => chainAux ps (pref ++ [seg]) st' rest

/-- Evaluate a segment path root-down through the incremental matcher with
correctly threaded ancestor state, as the specification describes. -/
def chainEval (ps : List Pattern) (segs : List (List Char)) :
    Except String (Bool × List Bool) :=
  chainAux ps [] (false, []) segs

/-- The compiled pattern of the rule `"*"` (as built by `NewPatterns`). -/
def pStar : Pattern :=
  { matchType := .RegexpMatch, cleanedPattern := ['*'], dirs := [['*']],
    regexp := some ⟨[.starNoSep], true⟩, exclusion := false }

/-- The compiled pattern of the inclusion rule `"a"`. -/
def pInclA : Pattern :=
  { matchType := .ExactMatch, cleanedPattern := ['a'], dirs := [['a']],
    regexp := none, exclusion := false }

/-- The compiled pattern of the exclusion rule `"!a"`. -/
def pExclA : Pattern :=
  { matchType := .ExactMatch, cleanedPattern := ['a'], dirs := [['a']],
    regexp := none, exclusion := true }

/-- The parsed regular expression generated for the pattern `a*\`
(a trailing lone backslash): the appended `$` has been escaped into the
literal dollar at the end of the body, and the end anchor is gone. -/
def reTrailing : Regex := ⟨[.lit 'a', .starNoSep, .lit '$'], false⟩

/-- C1: applying `MatchesOrParentMatches` with the rules
`["*.go", "!fileutils.go"]` to `fileutils.go` yields `false`, and with
`["!fileutils.go", "*.go"]` it yields `true`: the last rule whose outcome
changes the running verdict wins, so negation is order-sensitive. -/
theorem claim_C1_last_match_wins :
    (newPatterns ["*.go".data, "!fileutils.go".data]).map
      (fun ps => matchesOrParentMatches ps "fileutils.go".data) = .ok false ∧
    (newPatterns ["!fileutils.go".data, "*.go".data]).map
      (fun ps => matchesOrParentMatches ps "fileutils.go".data) = .ok true :=
  ⟨rfl, rfl⟩

/-- C2: `MatchesOrParentMatches` with `["docs", "!docs/README.md"]` on
`docs/README.md` yields `false`, and with
`["**", "!util/docker/web", "util/docker/web/foo"]` on
`util/docker/web/foo` yields `true`: a rule matching an ancestor directory
counts as a match of that rule for the path. -/
theorem claim_C2_directory_fixtures :
    (newPatterns ["docs".data, "!docs/README.md".data]).map
      (fun ps => matchesOrParentMatches ps "docs/README.md".data) = .ok false ∧
    (newPatterns ["**".data, "!util/docker/web".data, "util/docker/web/foo".data]).map
      (fun ps => matchesOrParentMatches ps "util/docker/web/foo".data) = .ok true :=
  ⟨rfl, rfl⟩

/-- C3, counterexample: the claim says a rule is skipped (with the verdict
unchanged) exactly when its exclusion flag equals the running `matched`
flag.  For the single inclusion rule `"a"` on the path `a`, the flags are
equal (`false = false`) at the first iteration, yet the code evaluates the
rule (the instrumented step records an evaluation) and the verdict flips to
`true`; an evaluator implementing the claim's skip rule returns `false`. -/
theorem claim_C3_counterexample :
    newPatterns [['a']] = .ok [pInclA] ∧
    pInclA.exclusion = false ∧
    matchesOrParentMatches [pInclA] ['a'] = true ∧
    matchesOrParentMatchesSpecSkip [pInclA] ['a'] = false ∧
    mopStepInstr ['a'] ['.'] [['.']] (false, []) pInclA = (true, [true]) :=
  ⟨rfl, rfl, rfl, rfl, rfl⟩

/-- C4, counterexample: the pattern `a*\` compiles to the `RegexpMatch`
strategy, but its generated expression is NOT anchored at the end (the
trailing lone backslash escapes the appended `$` into a literal dollar), and
`Pattern.Match` accepts the path `a$zz` even though the expression body
fully matches only its proper prefix `a$`, not the entire path. -/
theorem claim_C4_counterexample :
    Compile "a*\\".data = .ok (.RegexpMatch, some reTrailing) ∧
    reTrailing.endAnchored = false ∧
    (newPattern "a*\\".data).map (fun p => patternMatch p "a$zz".data) = .ok true ∧
    reFull reTrailing.body "a$zz".data = false ∧
    reFull reTrailing.body "a$".data = true :=
  ⟨rfl, rfl, rfl, rfl, rfl⟩

/-- C4, code-bug evidence: the `escapeBytes` bitmap is initialised with
`escapeBytes[b%8] |= 1 << (b/8)` performed at byte width, and for the bytes
`'|'` (124), `'\x7b'` (123) and `'\x7d'` (125) the shift amount `b/8 = 15`
overflows the byte, so the stored bit is zero: `shouldEscape` misses three
of the eight characters its own initialiser enumerates while still holding
for the other five.  The scan loop therefore passes a pattern's `'|'`
through unescaped: for the pattern `*|foo` the generated expression source
is `^` followed by the fragments below and a final `$`, i.e. the string
`^[^/]*|foo$`, whose bare top-level alternation bar leaves the alternative
`foo$` unanchored at the start — so the full expression no longer requires
a whole-string match, contrary to the anchoring invariant. -/
theorem claim_C4_escape_overflow :
    shouldEscape '|' = false ∧
    shouldEscape '\x7b' = false ∧
    shouldEscape '\x7d' = false ∧
    shouldEscape '.' = true ∧
    shouldEscape '+' = true ∧
    shouldEscape '(' = true ∧
    shouldEscape ')' = true ∧
    shouldEscape '$' = true ∧
    scanLoop "*|foo".data 0 .ExactMatch []
      = (.RegexpMatch, [.starNoSep, .ch '|', .ch 'f', .ch 'o', .ch 'o']) :=
  ⟨rfl, rfl, rfl, rfl, rfl, rfl, rfl, rfl, rfl⟩

/-- C5, counterexample: the single `*` compiles to a zero-or-more
non-separator fragment, so the compiled pattern `a*b` DOES match the path
`ab`, contradicting the claim that the fragment requires one or more
characters. -/
theorem claim_C5_counterexample :
    (newPattern "a*b".data).map (fun p => patternMatch p "ab".data) = .ok true :=
  rfl

/-- C7, counterexample: with the rules `["*/c", "!a"]` and the path `a/c`,
the incremental matcher — threaded correctly, one segment at a time from the
root with an initially empty state — returns `true`, while the full-scan
matcher returns `false`: the exclusion rule `!a` was skipped when the parent
`a` was evaluated (nothing had matched yet), so its ancestor match is never
seen by the child, whose call does no ancestor scan. -/
theorem claim_C7_counterexample :
    (newPatterns ["*/c".data, "!a".data]).bind
      (fun ps => (chainEval ps [['a'], ['c']]).map Prod.fst) = .ok true ∧
    (newPatterns ["*/c".data, "!a".data]).map
      (fun ps => matchesOrParentMatches ps "a/c".data) = .ok false :=
  ⟨rfl, rfl⟩

/-- C8: classification determinism of the compiler on the five fixture
patterns: `*` is `RegexpMatch`, `abc.def` is `ExactMatch`, `dir/**` is
`PrefixMatch`, `**/dir` is `SuffixMatch`, and `**/dir2/*` is `RegexpMatch`
(the leading double star first forces `SuffixMatch`, which the later single
`*` overrides). -/
theorem claim_C8_classification :
    (Compile "*".data).map Prod.fst = .ok .RegexpMatch ∧
    (Compile "abc.def".data).map Prod.fst = .ok .ExactMatch ∧
    (Compile "dir/**".data).map Prod.fst = .ok .PrefixMatch ∧
    (Compile "**/dir".data).map Prod.fst = .ok .SuffixMatch ∧
    (Compile "**/dir2/*".data).map Prod.fst = .ok .RegexpMatch :=
  ⟨rfl, rfl, rfl, rfl, rfl⟩

/-- C9: the incremental entry point applies no current-directory guard and
no lexical cleaning: on the path `.` with the rule list `["*"]` and an empty
parent state, `MatchesUsingParentResults` returns `true` (with match vector
`[true]`), whereas `MatchesOrParentMatches` on the same inputs returns
`false`. -/
theorem claim_C9_incremental_no_guard :
    (newPatterns [['*']]).bind
      (fun ps => matchesUsingParentResults ps ['.'] []) = .ok (true, [true]) ∧
    (newPatterns [['*']]).map (fun ps => matchesOrParentMatches ps ['.']) = .ok false :=
  ⟨rfl, rfl⟩

/-- C6: the current-directory guard of the full evaluator: for every rule
list, `MatchesOrParentMatches` applied to a path whose lexically cleaned
form is `.` returns `false`, independent of the rules. -/
theorem claim_C6_dot_guard (patterns : List Pattern) (file : List Char)
    (h : clean file = ['.']) : matchesOrParentMatches patterns file = false := by
  unfold matchesOrParentMatches
  rw [h]
  simp

theorem claim_C6_dot_guard_witness :
    newPatterns [['*']] = .ok [pStar] ∧ clean ['.'] = ['.'] ∧
    matchesOrParentMatches [pStar] ['.'] = false :=
  ⟨rfl, rfl, claim_C6_dot_guard [pStar] ['.'] rfl⟩

theorem mopInstr_fst : ∀ (ps : List Pattern) (f pp : List Char) (d : List (List Char))
    (st : Bool × List Bool),
    (List.foldl (mopStepInstr f pp d) st ps).1 = List.foldl (mopStep f pp d) st.1 ps := by
  intro ps
  induction ps with
  | nil => intro f pp d st; rfl
  | cons p rest ih =>
    intro f pp d st
    simp only [List.foldl_cons]
    rw [ih]
    have hstep : (mopStepInstr f pp d st p).1 = mopStep f pp d st.1 p := by
      unfold mopStepInstr mopStep
      by_cases h : p.exclusion ≠ st.1
      · rw [if_pos h, if_pos h]
      · rw [if_neg h, if_neg h]
    rw [hstep]

/-- C3 (amended): in `MatchesOrParentMatches`, a rule is skipped — without
entering its evaluation branch, leaving the running verdict unchanged —
exactly when the rule's exclusion flag DIFFERS from the current `matched`
flag; a rule whose exclusion flag equals `matched` is evaluated.  The
instrumented evaluator computes the same verdict as the plain one, each
step's evaluation flag is `exclusion = matched`, and a skipped step returns
`matched` unchanged. -/
theorem claim_C3_skip_rule :
    (∀ (patterns : List Pattern) (file : List Char),
      (matchesOrParentMatchesInstr patterns file).1 = matchesOrParentMatches patterns file) ∧
    (∀ (file parentPath : List Char) (dirs : List (List Char)) (m : Bool) (p : Pattern),
      mopStepInstr file parentPath dirs (m, []) p
        = (mopStep file parentPath dirs m p, [decide (p.exclusion = m)])) ∧
    (∀ (file parentPath : List Char) (dirs : List (List Char)) (m : Bool) (p : Pattern),
      p.exclusion ≠ m → mopStep file parentPath dirs m p = m) := by
  refine ⟨?_, ?_, ?_⟩
  · intro ps file
    unfold matchesOrParentMatchesInstr matchesOrParentMatches
    by_cases h : clean file = ['.']
    · rw [h]; simp
    · simp only [if_neg h]
      exact mopInstr_fst ps _ _ _ _
  · intro file pp dirs m p
    unfold mopStepInstr mopStep
    by_cases h : p.exclusion = m
    · rw [if_neg (by simp [h]), if_neg (by simp [h])]
      simp [h]
    · rw [if_pos (by exact h), if_pos (by exact h)]
      simp [h]
  · intro file pp dirs m p h
    unfold mopStep
    rw [if_pos h]

theorem claim_C3_skip_rule_witness :
    pExclA.exclusion ≠ false ∧ mopStep ['a'] ['.'] [['.']] false pExclA = false :=
  ⟨by decide, claim_C3_skip_rule.2.2 ['a'] ['.'] [['.']] false pExclA (by decide)⟩

theorem scanLoop_suffix_aux : ∀ N rem i mt acc, rem.length ≤ N →
    (scanLoop rem i mt acc).1 = .SuffixMatch →
    mt = .SuffixMatch ∨ (i = 0 ∧ ∃ r, rem = '*' :: '*' :: r) := by
  intro N
  induction N with
  | zero =>
    intro rem i mt acc hlen h
    match rem, hlen with
    | [], _ => exact Or.inl h
  | succ N ih =>
    intro rem i mt acc hlen h
    rw [scanLoop.eq_def] at h
    split at h
    · exact Or.inl h
    · -- double star followed by a separator
      rename_i rest3 _ _ _
      split at h
      · by_cases hi : i = 0
        · exact Or.inr ⟨hi, _, rfl⟩
        · simp only [if_neg hi] at h
          split at h <;> simp at h
      · simp only [List.length_cons] at hlen
        have := ih _ _ _ _ (by (try simp only [List.length_cons] at hlen ⊢); omega) h
        rcases this with hmt | ⟨hi, _⟩
        · by_cases hi : i = 0
          · exact Or.inr ⟨hi, _, rfl⟩
          · rw [if_neg hi] at hmt
            simp at hmt
        · omega
    · -- double star not followed by a separator
      rename_i rest2 _ _
      split at h
      · by_cases hi : i = 0
        · exact Or.inr ⟨hi, _, rfl⟩
        · simp only [if_neg hi] at h
          split at h <;> simp at h
      · simp only [List.length_cons] at hlen
        have := ih _ _ _ _ (by (try simp only [List.length_cons] at hlen ⊢); omega) h
        rcases this with hmt | ⟨hi, _⟩
        · by_cases hi : i = 0
          · exact Or.inr ⟨hi, _, rfl⟩
          · rw [if_neg hi] at hmt
            simp at hmt
        · omega
    · -- single star
      rename_i rest _ _
      simp only [List.length_cons] at hlen
      have := ih _ _ _ _ (by (try simp only [List.length_cons] at hlen ⊢); omega) h
      rcases this with hmt | ⟨hi, _⟩
      · simp at hmt
      · omega
    · -- question mark
      rename_i rest _ _
      simp only [List.length_cons] at hlen
      have := ih _ _ _ _ (by (try simp only [List.length_cons] at hlen ⊢); omega) h
      rcases this with hmt | ⟨hi, _⟩
      · simp at hmt
      · omega
    · -- ordinary character
      rename_i c rest _ _ _ _
      simp only [List.length_cons] at hlen
      split at h
      · have := ih _ _ _ _ (by (try simp only [List.length_cons] at hlen ⊢); omega) h
        rcases this with hmt | ⟨hi, _⟩
        · exact Or.inl hmt
        · omega
      · split at h
        · split at h
          · have := ih _ _ _ _ (by (try simp only [List.length_cons] at hlen ⊢); omega) h
            rcases this with hmt | ⟨hi, _⟩
            · exact Or.inl hmt
            · omega
          · rename_i c2 rest2
            have := ih _ _ _ _ (by (try simp only [List.length_cons] at hlen ⊢); omega) h
            rcases this with hmt | ⟨hi, _⟩
            · simp at hmt
            · omega
        · split at h
          · have := ih _ _ _ _ (by (try simp only [List.length_cons] at hlen ⊢); omega) h
            rcases this with hmt | ⟨hi, _⟩
            · simp at hmt
            · omega
          · have := ih _ _ _ _ (by (try simp only [List.length_cons] at hlen ⊢); omega) h
            rcases this with hmt | ⟨hi, _⟩
            · exact Or.inl hmt
            · omega

theorem scanLoop_suffix : ∀ rem i mt acc, (scanLoop rem i mt acc).1 = .SuffixMatch →
    mt = .SuffixMatch ∨ (i = 0 ∧ ∃ r, rem = '*' :: '*' :: r) :=
  fun rem i mt acc => scanLoop_suffix_aux rem.length rem i mt acc (Nat.le_refl _)

theorem scanLoop_prefix_aux : ∀ N rem i mt acc, rem.length ≤ N →
    (scanLoop rem i mt acc).1 = .PrefixMatch →
    mt = .PrefixMatch ∨ 2 ≤ rem.length := by
  intro N
  induction N with
  | zero =>
    intro rem i mt acc hlen h
    match rem, hlen with
    | [], _ => exact Or.inl h
  | succ N ih =>
    intro rem i mt acc hlen h
    rw [scanLoop.eq_def] at h
    split at h
    · exact Or.inl h
    · exact Or.inr (by simp only [List.length_cons]; omega)
    · exact Or.inr (by simp only [List.length_cons]; omega)
    · -- single star
      rename_i rest _ _
      simp only [List.length_cons] at hlen
      have := ih _ _ _ _ (by (try simp only [List.length_cons] at hlen ⊢); omega) h
      rcases this with hmt | hlen2
      · simp at hmt
      · simp only [List.length_cons]
        omega
    · -- question mark
      rename_i rest _ _
      simp only [List.length_cons] at hlen
      have := ih _ _ _ _ (by (try simp only [List.length_cons] at hlen ⊢); omega) h
      rcases this with hmt | hlen2
      · simp at hmt
      · simp only [List.length_cons]
        omega
    · -- ordinary character
      rename_i c rest _ _ _ _
      simp only [List.length_cons] at hlen
      split at h
      · have := ih _ _ _ _ (by (try simp only [List.length_cons] at hlen ⊢); omega) h
        rcases this with hmt | hlen2
        · exact Or.inl hmt
        · simp only [List.length_cons]
          omega
      · split at h
        · split at h
          · have := ih _ _ _ _ (by (try simp only [List.length_cons] at hlen ⊢); omega) h
            rcases this with hmt | hlen2
            · exact Or.inl hmt
            · simp at hlen2
          · rename_i c2 rest2
            have := ih _ _ _ _ (by (try simp only [List.length_cons] at hlen ⊢); omega) h
            rcases this with hmt | hlen2
            · simp at hmt
            · simp only [List.length_cons]
              omega
        · split at h
          · have := ih _ _ _ _ (by (try simp only [List.length_cons] at hlen ⊢); omega) h
            rcases this with hmt | hlen2
            · simp at hmt
            · simp only [List.length_cons]
              omega
          · have := ih _ _ _ _ (by (try simp only [List.length_cons] at hlen ⊢); omega) h
            rcases this with hmt | hlen2
            · exact Or.inl hmt
            · simp only [List.length_cons]
              omega

theorem scanLoop_prefix : ∀ rem i mt acc, (scanLoop rem i mt acc).1 = .PrefixMatch →
    mt = .PrefixMatch ∨ 2 ≤ rem.length :=
  fun rem i mt acc => scanLoop_prefix_aux rem.length rem i mt acc (Nat.le_refl _)

theorem Compile_ok_fst : ∀ pat pr, Compile pat = .ok pr →
    pr.1 = (scanLoop pat 0 .ExactMatch []).1 := by
  intro pat pr h
  simp only [Compile] at h
  split at h
  · split at h
    · cases h
      rfl
    · simp at h
  · cases h
    rfl

theorem mkPattern_ok : ∀ q e p, mkPattern q e = .ok p →
    Compile p.cleanedPattern = .ok (p.matchType, p.regexp) := by
  intro q e p h
  unfold mkPattern at h
  split at h
  · simp at h
  · rename_i mr heq
    cases h
    rw [heq]

theorem newPattern_ok : ∀ pat p, newPattern pat = .ok p →
    Compile p.cleanedPattern = .ok (p.matchType, p.regexp) := by
  intro pat p h
  match pat, h with
  | c :: rest, h =>
    simp only [newPattern] at h
    split at h
    all_goals split at h
    all_goals first
      | simp at h
      | exact mkPattern_ok _ _ _ h

/-- C10: `Pattern.Match` is total on patterns built by a successful
`NewPattern` call: a `SuffixMatch` pattern's cleaned text begins with a
double star (so dropping two characters is in bounds), a `PrefixMatch`
pattern's cleaned text has length at least 2 (so dropping the trailing two
characters is in bounds), the empty suffix always satisfies the has-suffix
test (so the `suffix[0]`/`suffix[1:]` accesses are reached only with a
non-empty suffix), and `Match` returns `false` for the `UnknownMatch`
strategy. -/
theorem claim_C10_match_total :
    (∀ (pat : List Char) (p : Pattern), newPattern pat = .ok p →
      (p.matchType = .SuffixMatch → ∃ r, p.cleanedPattern = '*' :: '*' :: r) ∧
      (p.matchType = .PrefixMatch → 2 ≤ p.cleanedPattern.length)) ∧
    (∀ path : List Char, ([] : List Char).isSuffixOf path = true) ∧
    (∀ (p : Pattern) (path : List Char), p.matchType = .UnknownMatch →
      patternMatch p path = false) := by
  refine ⟨?_, ?_, ?_⟩
  · intro pat p h
    have hc := newPattern_ok pat p h
    have hfst := Compile_ok_fst p.cleanedPattern (p.matchType, p.regexp) hc
    constructor
    · intro hmt
      rw [hmt] at hfst
      have := scanLoop_suffix p.cleanedPattern 0 .ExactMatch [] hfst.symm
      rcases this with h1 | ⟨_, r, hr⟩
      · cases h1
      · exact ⟨r, hr⟩
    · intro hmt
      rw [hmt] at hfst
      have := scanLoop_prefix p.cleanedPattern 0 .ExactMatch [] hfst.symm
      rcases this with h1 | h2
      · cases h1
      · exact h2
  · intro path
    simp [List.isSuffixOf, List.isPrefixOf]
  · intro p path hmt
    unfold patternMatch
    rw [hmt]

/-- The compiled pattern of the rule `"**/dir"`. -/
def pSufDir : Pattern :=
  { matchType := .SuffixMatch, cleanedPattern := "**/dir".data,
    dirs := [['*', '*'], ['d', 'i', 'r']], regexp := none, exclusion := false }

theorem claim_C10_match_total_witness :
    newPattern "**/dir".data = .ok pSufDir ∧
    ∃ r, pSufDir.cleanedPattern = '*' :: '*' :: r :=
  ⟨rfl, (claim_C10_match_total.1 "**/dir".data pSufDir rfl).1 rfl⟩

/-- C5 (amended): a single `*` (not part of a double star) appends the
ZERO-or-more non-separator fragment `[^/]*` and upgrades the classification
to `RegexpMatch` — both when more pattern follows and at the end of the
pattern; the fragment matches the empty string, so the compiled pattern
`a*b` matches `aXb` AND the path `ab`. -/
theorem claim_C5_single_star :
    (∀ (c : Char) (rest : List Char) (i : Nat) (mt : MatchType) (acc : List RFrag),
      c ≠ '*' → scanLoop ('*' :: c :: rest) i mt acc
        = scanLoop (c :: rest) (i + 1) .RegexpMatch (acc ++ [.starNoSep])) ∧
    (∀ (i : Nat) (mt : MatchType) (acc : List RFrag),
      scanLoop ['*'] i mt acc = (.RegexpMatch, acc ++ [.starNoSep])) ∧
    reFull [RElem.starNoSep] [] = true ∧
    (newPattern "a*b".data).map
      (fun p => (p.matchType, patternMatch p "aXb".data, patternMatch p "ab".data))
      = .ok (.RegexpMatch, true, true) := by
  refine ⟨?_, ?_, rfl, rfl⟩
  · intro c rest i mt acc hc
    rw [scanLoop.eq_def]
    simp [hc]
  · intro i mt acc
    rfl

theorem claim_C5_single_star_witness :
    ('b' : Char) ≠ '*' ∧
    scanLoop ['*', 'b'] 1 .ExactMatch [.ch 'a']
      = scanLoop ['b'] 2 .RegexpMatch ([.ch 'a'] ++ [.starNoSep]) :=
  ⟨by decide, claim_C5_single_star.1 'b' [] 1 .ExactMatch [.ch 'a'] (by decide)⟩

/-- A well-formed relative path segment: non-empty, separator-free, and not
one of the special components `.` and `..`. -/
def validSeg (s : List Char) : Bool :=
  decide (s ≠ []) && decide (sep ∉ s) && decide (s ≠ ['.']) && decide (s ≠ ['.', '.'])

theorem splitSep_sepfree : ∀ s : List Char, (∀ c ∈ s, c ≠ sep) → splitSep s = [s] := by
  intro s
  induction s with
  | nil => intro _; rfl
  | cons c t ih =>
    intro h
    have hc : c ≠ sep := h c (by simp)
    have ht := ih (fun x hx => h x (by simp [hx]))
    rw [splitSep, if_neg hc, ht]

theorem splitSep_append_sep : ∀ (s t : List Char), (∀ c ∈ s, c ≠ sep) →
    splitSep (s ++ sep :: t) = s :: splitSep t := by
  intro s
  induction s with
  | nil =>
    intro t _
    simp [splitSep]
  | cons c s2 ih =>
    intro t h
    have hc : c ≠ sep := h c (by simp)
    have hs2 := ih t (fun x hx => h x (by simp [hx]))
    simp only [List.cons_append, List.append_eq, splitSep, if_neg hc, hs2]

theorem joinSep_append_last : ∀ (init : List (List Char)) (last : List Char),
    init ≠ [] → joinSep (init ++ [last]) = joinSep init ++ sep :: last := by
  intro init
  induction init with
  | nil => intro last h; cases h rfl
  | cons s rest ih =>
    intro last _
    cases rest with
    | nil => rfl
    | cons s2 rest2 =>
      have := ih last (by simp)
      show joinSep (s :: ((s2 :: rest2) ++ [last])) = (s ++ sep :: joinSep (s2 :: rest2)) ++ sep :: last
      rw [joinSep]
      · rw [this]
        simp
      · simp

theorem splitSep_join : ∀ segs, segs ≠ [] → (∀ s ∈ segs, ∀ c ∈ s, c ≠ sep) →
    splitSep (joinSep segs) = segs := by
  intro segs
  induction segs with
  | nil => intro h; cases h rfl
  | cons s rest ih =>
    intro _ h
    cases rest with
    | nil => exact splitSep_sepfree s (h s (by simp))
    | cons s2 rest2 =>
      have h1 : joinSep (s :: s2 :: rest2) = s ++ sep :: joinSep (s2 :: rest2) := rfl
      rw [h1, splitSep_append_sep s _ (h s (by simp)),
        ih (by simp) (fun x hx => h x (by simp [hx]))]

theorem splitSep_join_sep : ∀ segs (t : List Char), segs ≠ [] →
    (∀ s ∈ segs, ∀ c ∈ s, c ≠ sep) →
    splitSep (joinSep segs ++ sep :: t) = segs ++ splitSep t := by
  intro segs
  induction segs with
  | nil => intro t h; cases h rfl
  | cons s rest ih =>
    intro t _ h
    cases rest with
    | nil => exact splitSep_append_sep s t (h s (by simp))
    | cons s2 rest2 =>
      have h1 : joinSep (s :: s2 :: rest2) = s ++ sep :: joinSep (s2 :: rest2) := rfl
      rw [h1]
      rw [List.append_assoc, List.cons_append]
      rw [splitSep_append_sep s _ (h s (by simp))]
      rw [show joinSep (s2 :: rest2) ++ (sep :: t) = joinSep (s2 :: rest2) ++ sep :: t from rfl]
      rw [ih t (by simp) (fun x hx => h x (by simp [hx]))]
      rfl

theorem cleanSegsAux_valid : ∀ (segs tail : List (List Char)) (rooted : Bool)
    (out : List (List Char)),
    (∀ s ∈ segs, s ≠ [] ∧ s ≠ ['.'] ∧ s ≠ ['.', '.']) →
    cleanSegsAux rooted out (segs ++ tail) = cleanSegsAux rooted (out ++ segs) tail := by
  intro segs
  induction segs with
  | nil => intro tail rooted out _; simp
  | cons s rest ih =>
    intro tail rooted out h
    obtain ⟨h1, h2, h3⟩ := h s (by simp)
    show cleanSegsAux rooted out (s :: (rest ++ tail)) = _
    rw [cleanSegsAux, if_neg (by simp [h1, h2]), if_neg (by simp [h3])]
    rw [ih tail rooted (out ++ [s]) (fun x hx => h x (by simp [hx]))]
    simp

theorem joinSep_head : ∀ (c : Char) (s : List Char) (rest : List (List Char)),
    (joinSep ((c :: s) :: rest)).head? = some c := by
  intro c s rest
  cases rest <;> rfl

theorem valid_unpack : ∀ s, validSeg s = true →
    s ≠ [] ∧ sep ∉ s ∧ s ≠ ['.'] ∧ s ≠ ['.', '.'] := by
  intro s h
  simp [validSeg] at h
  tauto

theorem joinSep_ne_nil : ∀ (s : List Char) rest, s ≠ [] → joinSep (s :: rest) ≠ [] := by
  intro s rest hs
  cases rest with
  | nil => exact hs
  | cons s2 rest2 =>
    show s ++ sep :: joinSep (s2 :: rest2) ≠ []
    simp

theorem clean_join : ∀ segs, segs ≠ [] → (∀ s ∈ segs, validSeg s = true) →
    clean (joinSep segs) = joinSep segs := by
  intro segs hne hv
  match segs, hne with
  | s :: rest, _ =>
    obtain ⟨hs1, hs2, hs3, hs4⟩ := valid_unpack s (hv s (by simp))
    have hnn : joinSep (s :: rest) ≠ [] := joinSep_ne_nil s rest hs1
    have hrooted : ¬((joinSep (s :: rest)).head? = some sep) := by
      match s, hs1 with
      | c :: s2, _ =>
        rw [joinSep_head]
        intro hcc
        apply hs2
        simp at hcc
        simp [hcc]
    unfold clean
    rw [if_neg hnn]
    simp only [eq_false hrooted, decide_False, Bool.false_eq_true, if_false]
    rw [splitSep_join (s :: rest) (by simp)
      (fun x hx c hc => by
        obtain ⟨_, hx2, _, _⟩ := valid_unpack x (hv x hx)
        intro hcs
        exact hx2 (hcs ▸ hc))]
    rw [show (s :: rest) = (s :: rest) ++ ([] : List (List Char)) from by simp]
    rw [cleanSegsAux_valid (s :: rest) [] false []
      (fun x hx => by
        obtain ⟨a, b, c, d⟩ := valid_unpack x (hv x (by simpa using hx))
        exact ⟨a, c, d⟩)]
    rw [cleanSegsAux]
    simp only [List.nil_append, List.append_nil]
    rw [if_neg (by simpa using joinSep_ne_nil s rest hs1)]

theorem join_ne_dot : ∀ segs, segs ≠ [] → (∀ s ∈ segs, validSeg s = true) →
    joinSep segs ≠ ['.'] := by
  intro segs hne hv
  match segs, hne with
  | s :: rest, _ =>
    obtain ⟨hs1, hs2, hs3, hs4⟩ := valid_unpack s (hv s (by simp))
    cases rest with
    | nil => exact hs3
    | cons s2 rest2 =>
      show s ++ sep :: joinSep (s2 :: rest2) ≠ ['.']
      intro h
      match s, hs1 with
      | c :: s3, _ => simp at h

theorem dropWhile_all_append : ∀ (p : Char → Bool) (l1 l2 : List Char),
    (∀ x ∈ l1, p x = true) → List.dropWhile p (l1 ++ l2) = List.dropWhile p l2 := by
  intro p l1
  induction l1 with
  | nil => intro l2 _; rfl
  | cons c t ih =>
    intro l2 h
    rw [List.cons_append, List.dropWhile_cons, if_pos (h c (by simp))]
    exact ih l2 (fun x hx => h x (by simp [hx]))

theorem dropWhile_all_nil : ∀ (p : Char → Bool) (l : List Char),
    (∀ x ∈ l, p x = true) → List.dropWhile p l = [] := by
  intro p l h
  have := dropWhile_all_append p l [] h
  simpa using this

theorem dirPath_single : ∀ s : List Char, (∀ c ∈ s, c ≠ sep) → dirPath s = ['.'] := by
  intro s h
  unfold dirPath
  rw [dropWhile_all_nil _ s.reverse
    (fun x hx => by simp [h x (by simpa using hx)])]
  rfl

theorem clean_join_trailing : ∀ segs, segs ≠ [] → (∀ s ∈ segs, validSeg s = true) →
    clean (joinSep segs ++ [sep]) = joinSep segs := by
  intro segs hne hv
  match segs, hne with
  | s :: rest, _ =>
    obtain ⟨hs1, hs2, hs3, hs4⟩ := valid_unpack s (hv s (by simp))
    have hnn : joinSep (s :: rest) ++ [sep] ≠ [] := by simp
    have hrooted : ¬((joinSep (s :: rest) ++ [sep]).head? = some sep) := by
      match s, hs1 with
      | c :: s2, _ =>
        have : (joinSep ((c :: s2) :: rest) ++ [sep]).head? = some c := by
          cases rest <;> rfl
        rw [this]
        intro hcc
        apply hs2
        simp at hcc
        simp [hcc]
    unfold clean
    rw [if_neg hnn]
    simp only [eq_false hrooted, decide_False, Bool.false_eq_true, if_false]
    rw [show joinSep (s :: rest) ++ [sep] = joinSep (s :: rest) ++ sep :: [] from rfl]
    rw [splitSep_join_sep (s :: rest) [] (by simp)
      (fun x hx c hc => by
        obtain ⟨_, hx2, _, _⟩ := valid_unpack x (hv x hx)
        intro hcs
        exact hx2 (hcs ▸ hc))]
    rw [show splitSep [] = [[]] from rfl]
    rw [cleanSegsAux_valid (s :: rest) [[]] false []
      (fun x hx => by
        obtain ⟨a, b, c, d⟩ := valid_unpack x (hv x (by simpa using hx))
        exact ⟨a, c, d⟩)]
    have hstep : cleanSegsAux false ([] ++ s :: rest) [[]] = s :: rest := by
      rw [cleanSegsAux, if_pos (by simp)]
      rfl
    rw [hstep]
    rw [if_neg (by simpa using joinSep_ne_nil s rest hs1)]

theorem dirPath_join_last : ∀ (init : List (List Char)) (last : List Char), init ≠ [] →
    (∀ s ∈ init, validSeg s = true) → (∀ c ∈ last, c ≠ sep) →
    dirPath (joinSep (init ++ [last])) = joinSep init := by
  intro init last hne hv hlast
  rw [joinSep_append_last init last hne]
  unfold dirPath
  rw [show joinSep init ++ sep :: last = (joinSep init ++ [sep]) ++ last from by simp]
  rw [List.reverse_append]
  rw [dropWhile_all_append _ last.reverse _
    (fun x hx => by simp [hlast x (by simpa using hx)])]
  rw [List.reverse_append]
  simp only [List.reverse_cons, List.reverse_nil, List.nil_append, List.singleton_append]
  rw [show List.dropWhile (fun c => decide (c ≠ sep)) (sep :: (joinSep init).reverse)
      = sep :: (joinSep init).reverse from by
    rw [List.dropWhile_cons]
    simp]
  rw [show (sep :: (joinSep init).reverse).reverse = (joinSep init) ++ [sep] from by simp]
  exact clean_join_trailing init hne hv

theorem mopHit_dot : ∀ file dirs p, mopHit file ['.'] dirs p = patternMatch p file := by
  intro file dirs p
  unfold mopHit
  simp

theorem mopHit_ne_dot : ∀ file pp dirs p, pp ≠ ['.'] →
    mopHit file pp dirs p = (patternMatch p file || ancestorAny p dirs) := by
  intro file pp dirs p h
  unfold mopHit
  cases hm : patternMatch p file <;> simp [h]

theorem mupHit_parent : ∀ file p, mupHit file true p = patternMatch p file := by
  intro file p
  unfold mupHit
  simp

theorem mupHit_root : ∀ file p, dirPath file = ['.'] →
    mupHit file false p = patternMatch p file := by
  intro file p h
  unfold mupHit
  cases hm : patternMatch p file <;> simp [h]

theorem any_or_split : ∀ (ps : List Pattern) (f g : Pattern → Bool),
    ps.any (fun p => f p || g p) = (ps.any f || ps.any g) := by
  intro ps f g
  induction ps with
  | nil => rfl
  | cons p rest ih =>
    simp only [List.any_cons, ih]
    cases f p <;> cases g p <;> cases rest.any f <;> cases rest.any g <;> rfl

theorem zip_replicate_any : ∀ (ps : List Pattern) (f : Pattern → Bool),
    (ps.zip (List.replicate ps.length false)).any (fun q => q.2 || f q.1) = ps.any f := by
  intro ps f
  induction ps with
  | nil => rfl
  | cons p rest ih => simp [List.replicate_succ, ih]

theorem zip_any_or : ∀ (ps : List Pattern) (st : List Bool) (f : Pattern → Bool),
    st.length = ps.length →
    (ps.zip st).any (fun q => q.2 || f q.1) = (st.any id || ps.any f) := by
  intro ps
  induction ps with
  | nil =>
    intro st f h
    match st, h with
    | [], _ => rfl
  | cons p rest ih =>
    intro st f h
    match st, h with
    | b :: st2, h =>
      simp only [List.length_cons] at h
      have h2 := ih st2 f (by omega)
      simp only [List.zip_cons_cons, List.any_cons, h2, id]
      cases b <;> cases f p <;> cases st2.any id <;> cases rest.any f <;> rfl

theorem zip_exclusion : ∀ (ps : List Pattern) (st : List Bool),
    (∀ p ∈ ps, p.exclusion = false) → ∀ q ∈ ps.zip st, q.1.exclusion = false := by
  intro ps st h q hq
  exact h q.1 (List.mem_zip hq).1

theorem mupLoop_len : ∀ (zps : List (Pattern × Bool)) file hp (m : Bool) (acc : List Bool),
    (mupLoop file hp zps m acc).2.length = acc.length + zps.length := by
  intro zps
  induction zps with
  | nil => intro file hp m acc; simp [mupLoop]
  | cons q rest ih =>
    intro file hp m acc
    obtain ⟨p, seed⟩ := q
    rw [mupLoop]
    by_cases hs : seed = true
    · rw [if_pos hs, ih]
      simp
      omega
    · rw [if_neg hs]
      by_cases hx : p.exclusion ≠ m
      · rw [if_pos hx, ih]
        simp
        omega
      · rw [if_neg hx]
        rw [ih]
        simp
        omega

theorem mupLoop_verdict : ∀ (zps : List (Pattern × Bool)) file hp (m : Bool) (acc : List Bool),
    (∀ q ∈ zps, q.1.exclusion = false) →
    (mupLoop file hp zps m acc).1 = (m || zps.any (fun q => q.2 || mupHit file hp q.1)) := by
  intro zps
  induction zps with
  | nil => intro file hp m acc _; simp [mupLoop]
  | cons q rest ih =>
    intro file hp m acc h
    obtain ⟨p, seed⟩ := q
    have hx : p.exclusion = false := h (p, seed) (by simp)
    have hrest : ∀ q ∈ rest, q.1.exclusion = false :=
      fun q hq => h q (List.mem_cons_of_mem _ hq)
    rw [mupLoop]
    by_cases hs : seed = true
    · rw [if_pos hs, ih _ _ _ _ hrest]
      simp [hs, hx]
    · have hs2 : seed = false := by simpa using hs
      rw [if_neg hs]
      by_cases hm : p.exclusion ≠ m
      · have hm2 : m = true := by
          cases m
          · rw [hx] at hm; simp at hm
          · rfl
        rw [if_pos hm, ih _ _ _ _ hrest]
        simp [hm2]
      · have hm2 : m = false := by
          cases m
          · rfl
          · rw [hx] at hm; simp at hm
        rw [if_neg hm, ih _ _ _ _ hrest]
        subst hm2
        simp only [hs2, hx]
        cases hh : mupHit file hp p <;> simp [hh]

theorem mupLoop_info : ∀ (zps : List (Pattern × Bool)) file hp (m : Bool) (acc : List Bool),
    (∀ q ∈ zps, q.1.exclusion = false) →
    ((mupLoop file hp zps m acc).2.any id)
      = (acc.any id || zps.any (fun q => q.2 || (!m && mupHit file hp q.1))) := by
  intro zps
  induction zps with
  | nil => intro file hp m acc _; simp [mupLoop]
  | cons q rest ih =>
    intro file hp m acc h
    obtain ⟨p, seed⟩ := q
    have hx : p.exclusion = false := h (p, seed) (by simp)
    have hrest : ∀ q ∈ rest, q.1.exclusion = false :=
      fun q hq => h q (List.mem_cons_of_mem _ hq)
    rw [mupLoop]
    by_cases hs : seed = true
    · rw [if_pos hs, ih _ _ _ _ hrest]
      simp [hs, hx]
    · have hs2 : seed = false := by simpa using hs
      rw [if_neg hs]
      by_cases hm : p.exclusion ≠ m
      · have hm2 : m = true := by
          cases m
          · rw [hx] at hm; simp at hm
          · rfl
        rw [if_pos hm, ih _ _ _ _ hrest]
        subst hm2
        simp [hs2]
      · have hm2 : m = false := by
          cases m
          · rfl
          · rw [hx] at hm; simp at hm
        rw [if_neg hm, ih _ _ _ _ hrest]
        subst hm2
        simp only [hs2, hx, Bool.not_false, Bool.true_and, Bool.false_or]
        cases hh : mupHit file hp p
        · simp [hh]
        · simp [hh]

theorem mup_no_parent : ∀ (ps : List Pattern) (file : List Char),
    matchesUsingParentResults ps file []
      = .ok (mupLoop file false (ps.zip (List.replicate ps.length false)) false []) := by
  intro ps file
  unfold matchesUsingParentResults
  rw [if_neg (by simp)]
  simp [fromSlash]

theorem mup_with_parent : ∀ (ps : List Pattern) (file : List Char) (st : List Bool),
    st.length = ps.length → ps ≠ [] →
    matchesUsingParentResults ps file st
      = .ok (mupLoop file true (ps.zip st) false []) := by
  intro ps file st hlen hne
  have hne2 : st.length ≠ 0 := by
    intro h0
    apply hne
    have : ps.length = 0 := by omega
    exact List.length_eq_zero.mp this
  unfold matchesUsingParentResults
  rw [if_neg (by simp [hlen])]
  simp [fromSlash, hne2, hlen, hne]

theorem ancestorAny_single : ∀ (p : Pattern) (s : List Char),
    ancestorAny p [s] = patternMatch p s := by
  intro p s
  unfold ancestorAny
  rw [show List.range [s].length = [0] from rfl]
  simp [joinSep]

theorem take_append_small : ∀ (pref : List (List Char)) (seg : List Char) (k : Nat),
    k < pref.length → (pref ++ [seg]).take (k + 1) = pref.take (k + 1) := by
  intro pref seg k hk
  rw [List.take_append_eq_append_take]
  rw [show k + 1 - pref.length = 0 from by omega]
  simp

theorem take_append_full : ∀ (pref : List (List Char)) (seg : List Char),
    (pref ++ [seg]).take (pref.length + 1) = pref ++ [seg] := by
  intro pref seg
  exact List.take_all_of_le (by simp)

theorem ancestorAny_append_last : ∀ (p : Pattern) (pref : List (List Char)) (seg : List Char),
    ancestorAny p (pref ++ [seg])
      = (ancestorAny p pref || patternMatch p (joinSep (pref ++ [seg]))) := by
  intro p pref seg
  unfold ancestorAny
  rw [Bool.eq_iff_iff]
  simp only [List.any_eq_true, List.mem_range, Bool.or_eq_true]
  constructor
  · rintro ⟨k, hk, hm⟩
    rw [show (pref ++ [seg]).length = pref.length + 1 from by simp] at hk
    by_cases hkp : k < pref.length
    · exact Or.inl ⟨k, hkp, by rwa [take_append_small pref seg k hkp] at hm⟩
    · have hke : k = pref.length := by omega
      subst hke
      rw [take_append_full] at hm
      exact Or.inr hm
  · rintro (⟨k, hk, hm⟩ | hm)
    · refine ⟨k, by simp; omega, ?_⟩
      rw [take_append_small pref seg k hk]
      exact hm
    · refine ⟨pref.length, by simp, ?_⟩
      rw [take_append_full]
      exact hm

theorem mop_fold_any : ∀ (ps : List Pattern) (f pp : List Char) (dirs : List (List Char))
    (m : Bool), (∀ p ∈ ps, p.exclusion = false) →
    List.foldl (mopStep f pp dirs) m ps = (m || ps.any (fun p => mopHit f pp dirs p)) := by
  intro ps
  induction ps with
  | nil => intro f pp dirs m _; simp
  | cons p rest ih =>
    intro f pp dirs m h
    have hx : p.exclusion = false := h p (by simp)
    have hrest : ∀ q ∈ rest, q.exclusion = false :=
      fun q hq => h q (List.mem_cons_of_mem _ hq)
    simp only [List.foldl_cons, List.any_cons]
    cases m with
    | true =>
      have hstep : mopStep f pp dirs true p = true := by
        unfold mopStep
        rw [if_pos (by simp [hx])]
      rw [hstep, ih _ _ _ _ hrest]
      simp
    | false =>
      have hstep : mopStep f pp dirs false p = mopHit f pp dirs p := by
        unfold mopStep mopEval
        rw [if_neg (by simp [hx]), hx]
        cases hh : mopHit f pp dirs p <;> simp [hh]
      rw [hstep, ih _ _ _ _ hrest]
      cases hh : mopHit f pp dirs p <;> simp [hh]

theorem mop_full : ∀ (ps : List Pattern) (segs : List (List Char)),
    (∀ p ∈ ps, p.exclusion = false) → segs ≠ [] → (∀ s ∈ segs, validSeg s = true) →
    matchesOrParentMatches ps (joinSep segs) = ps.any (fun p => ancestorAny p segs) := by
  intro ps segs hexcl hne hv
  have hg : (joinSep segs = ['.']) = False := eq_false (join_ne_dot segs hne hv)
  simp only [matchesOrParentMatches, clean_join segs hne hv, hg, if_false, fromSlash]
  rw [mop_fold_any ps _ _ _ false hexcl]
  simp only [Bool.false_or]
  have hdecomp : segs.dropLast ++ [segs.getLast hne] = segs :=
    List.dropLast_append_getLast hne
  have hlastv : validSeg (segs.getLast hne) = true := hv _ (List.getLast_mem hne)
  have hlastsep : ∀ c ∈ segs.getLast hne, c ≠ sep := by
    obtain ⟨_, h2, _, _⟩ := valid_unpack _ hlastv
    intro c hc hcs
    exact h2 (hcs ▸ hc)
  by_cases hinit : segs.dropLast = []
  · -- a single segment
    rw [← hdecomp, hinit]
    simp only [List.nil_append]
    have hj : joinSep [segs.getLast hne] = segs.getLast hne := rfl
    rw [hj, dirPath_single _ hlastsep]
    simp only [mopHit_dot, ancestorAny_single]
  · have hvinit : ∀ s ∈ segs.dropLast, validSeg s = true := by
      intro s hs
      apply hv
      rw [← hdecomp]
      exact List.mem_append_left _ hs
    have hsepinit : ∀ s ∈ segs.dropLast, ∀ c ∈ s, c ≠ sep := by
      intro s hs c hc hcs
      obtain ⟨_, h2, _, _⟩ := valid_unpack s (hvinit s hs)
      exact h2 (hcs ▸ hc)
    rw [← hdecomp]
    rw [dirPath_join_last _ _ hinit hvinit hlastsep]
    rw [splitSep_join _ hinit hsepinit]
    have hPPne : joinSep segs.dropLast ≠ ['.'] := join_ne_dot _ hinit hvinit
    have hhit : ∀ p, mopHit (joinSep (segs.dropLast ++ [segs.getLast hne]))
        (joinSep segs.dropLast) segs.dropLast p
        = (patternMatch p (joinSep (segs.dropLast ++ [segs.getLast hne]))
            || ancestorAny p segs.dropLast) :=
      fun p => mopHit_ne_dot _ _ _ p hPPne
    simp only [hhit, ancestorAny_append_last, Bool.or_comm]

theorem chain_step : ∀ (ps : List Pattern) (pref : List (List Char)) (seg : List Char)
    (st : List Bool),
    ps ≠ [] → (∀ p ∈ ps, p.exclusion = false) →
    (∀ s ∈ pref ++ [seg], validSeg s = true) →
    ((pref = [] ∧ st = []) ∨
      (st.length = ps.length ∧ st.any id = ps.any (fun p => ancestorAny p pref))) →
    ∃ v info, matchesUsingParentResults ps (joinSep (pref ++ [seg])) st = .ok (v, info) ∧
      v = ps.any (fun p => ancestorAny p (pref ++ [seg])) ∧
      info.length = ps.length ∧ info.any id = v := by
  intro ps pref seg st hps hexcl hv hinv
  have hvseg : validSeg seg = true := hv seg (by simp)
  have hsegsep : ∀ c ∈ seg, c ≠ sep := by
    obtain ⟨_, h2, _, _⟩ := valid_unpack _ hvseg
    intro c hc hcs
    exact h2 (hcs ▸ hc)
  have hzexcl : ∀ q ∈ ps.zip st, q.1.exclusion = false := zip_exclusion ps st hexcl
  rcases hinv with ⟨hpref, hst⟩ | ⟨hlen, hany⟩
  · -- root-level call with the empty parent state
    subst hpref
    subst hst
    rw [show ([] : List (List Char)) ++ [seg] = [seg] from rfl]
    rw [show joinSep [seg] = seg from rfl]
    rw [mup_no_parent ps seg]
    refine ⟨_, _, rfl, ?_, ?_, ?_⟩
    · rw [mupLoop_verdict _ _ _ _ _ (zip_exclusion ps _ hexcl)]
      rw [zip_replicate_any]
      have hroot : ∀ p, mupHit seg false p = patternMatch p seg :=
        fun p => mupHit_root seg p (dirPath_single seg hsegsep)
      simp only [Bool.false_or, hroot, ancestorAny_single]
      exact congrArg _ (funext hroot)
    · rw [mupLoop_len]
      simp
    · rw [mupLoop_info _ _ _ _ _ (zip_exclusion ps _ hexcl)]
      rw [mupLoop_verdict _ _ _ _ _ (zip_exclusion ps _ hexcl)]
      simp
  · -- a call seeded with the parent state
    rw [mup_with_parent ps _ st hlen hps]
    refine ⟨_, _, rfl, ?_, ?_, ?_⟩
    · rw [mupLoop_verdict _ _ _ _ _ hzexcl]
      rw [zip_any_or ps st _ hlen]
      simp only [mupHit_parent, Bool.false_or]
      rw [hany, ← any_or_split]
      simp only [ancestorAny_append_last]
      exact congrArg _ (funext fun p => by rw [mupHit_parent])
    · rw [mupLoop_len]
      simp [List.length_zip, hlen]
    · rw [mupLoop_info _ _ _ _ _ hzexcl]
      rw [mupLoop_verdict _ _ _ _ _ hzexcl]
      simp

theorem chainAux_run : ∀ (rest : List (List Char)) (ps : List Pattern)
    (pref : List (List Char)) (st : Bool × List Bool),
    ps ≠ [] → (∀ p ∈ ps, p.exclusion = false) →
    (∀ s ∈ pref ++ rest, validSeg s = true) → rest ≠ [] →
    ((pref = [] ∧ st.2 = []) ∨
      (st.2.length = ps.length ∧ st.2.any id = ps.any (fun p => ancestorAny p pref))) →
    ∃ st2, chainAux ps pref st rest = .ok st2 ∧
      st2.1 = ps.any (fun p => ancestorAny p (pref ++ rest)) := by
  intro rest
  induction rest with
  | nil => intro ps pref st _ _ _ hne _; cases hne rfl
  | cons seg rest2 ih =>
    intro ps pref st hps hexcl hv _ hinv
    have hvstep : ∀ s ∈ pref ++ [seg], validSeg s = true := by
      intro s hs
      apply hv
      rcases List.mem_append.mp hs with h | h
      · exact List.mem_append_left _ h
      · simp at h
        subst h
        exact List.mem_append_right _ (by simp)
    obtain ⟨v, info, heq, hverd, hlen, hanyv⟩ :=
      chain_step ps pref seg st.2 hps hexcl hvstep hinv
    rw [chainAux, heq]
    cases rest2 with
    | nil =>
      refine ⟨(v, info), rfl, ?_⟩
      simpa using hverd
    | cons seg2 rest3 =>
      have hv2 : ∀ s ∈ (pref ++ [seg]) ++ (seg2 :: rest3), validSeg s = true := by
        intro s hs
        apply hv
        rcases List.mem_append.mp hs with h | h
        · rcases List.mem_append.mp h with h2 | h2
          · exact List.mem_append_left _ h2
          · simp at h2
            subst h2
            exact List.mem_append_right _ (by simp)
        · exact List.mem_append_right _ (by simp [h])
      obtain ⟨st2, heq2, hv2r⟩ := ih ps (pref ++ [seg]) (v, info) hps hexcl hv2 (by simp)
        (Or.inr ⟨hlen, by rw [hanyv, hverd]⟩)
      refine ⟨st2, heq2, ?_⟩
      rw [hv2r]
      simp

theorem chain_empty_patterns : ∀ (rest : List (List Char)) (pref : List (List Char)),
    chainAux [] pref (false, []) rest = .ok (false, []) := by
  intro rest
  induction rest with
  | nil => intro pref; rfl
  | cons seg rest2 ih =>
    intro pref
    rw [chainAux]
    rw [show matchesUsingParentResults [] (joinSep (pref ++ [seg])) [] = .ok (false, []) from rfl]
    exact ih (pref ++ [seg])

/-- C7 (amended): the full-scan matcher and the incremental matcher with
correctly threaded ancestor state (an empty state at the first segment,
each returned vector passed to the next-longer prefix) agree for every rule
list in which no rule is an exclusion, on every non-empty path of
well-formed relative segments.  (With exclusion rules the two entry points
can disagree — see the counterexample.) -/
theorem claim_C7_inclusion_equiv : ∀ (ps : List Pattern) (segs : List (List Char)),
    (∀ p ∈ ps, p.exclusion = false) → segs ≠ [] →
    (∀ s ∈ segs, validSeg s = true) →
    (chainEval ps segs).map Prod.fst = .ok (matchesOrParentMatches ps (joinSep segs)) := by
  intro ps segs hexcl hne hv
  by_cases hps : ps = []
  · subst hps
    rw [chainEval, chain_empty_patterns segs []]
    have hg : (joinSep segs = ['.']) = False := eq_false (join_ne_dot segs hne hv)
    simp [matchesOrParentMatches, clean_join segs hne hv, hg, Except.map]
  · obtain ⟨st2, heq, hverd⟩ := chainAux_run segs ps [] (false, []) hps hexcl
      (by simpa using hv) hne (Or.inl ⟨rfl, rfl⟩)
    rw [chainEval, heq]
    rw [mop_full ps segs hexcl hne hv]
    simp only [Except.map]
    rw [hverd]
    simp

theorem claim_C7_inclusion_equiv_witness :
    (∀ p ∈ [pInclA], p.exclusion = false) ∧
    ((['a'] : List Char) :: [['b']]) ≠ [] ∧
    (chainEval [pInclA] [['a'], ['b']]).map Prod.fst
      = .ok (matchesOrParentMatches [pInclA] (joinSep [['a'], ['b']])) :=
  ⟨by decide, by decide,
    claim_C7_inclusion_equiv [pInclA] [['a'], ['b']] (by decide) (by decide) (by decide)⟩

end PM
